import Mathlib

/-!
# Verification of `renamer.py`

A shallow embedding of the ReNamerPy program (`src/renamer.py`): a
directory-tree scanner that collects files whose extension is in a filter
set (`find_files_by_format`), and a copy engine that copies each file into
a flat destination directory under the name `<basename>.txt`, resolving
name collisions with a per-file numeric counter
(`copy_and_rename_files`).  Filesystem effects are modelled explicitly:
the source tree is a finite tree of named files, the destination directory
is an association list from file names to file contents, and the fallible
I/O of an individual copy is an oracle bit on each source file.
-/

namespace Renamer

/-! ## String helpers mirroring `os.path` on separator-free base names -/

/-- Splits a character list at its last `'.'`: returns `some (before, dotAndAfter)`
where `before ++ dotAndAfter` is the input and `dotAndAfter` starts with the
last `'.'` of the input; `none` when no dot occurs. -/
def findLastDotSplit : List Char → Option (List Char × List Char)
  | [] => none
  | c :: cs =>
    match findLastDotSplit cs with
    | some (b, a) => some (c :: b, a)
    | none => if c = '.' then some ([], c :: cs) else none

/-- `os.path.splitext` restricted to base names (no path separators): splits at
the last dot, except that a name whose characters before the last dot are all
dots (e.g. `".bashrc"`, `"..."`) keeps an empty extension. -/
def splitext (s : String) : String × String :=
  match findLastDotSplit s.data with
  | none => (s, "")
  | some (b, a) => if b.any (fun c => c ≠ '.') then (⟨b⟩, ⟨a⟩) else (s, "")

/-- `os.path.basename` with `'/'` as separator: the suffix after the last slash. -/
def basenameD : List Char → List Char
  | [] => []
  | c :: cs => if cs.contains '/' || c = '/' then basenameD cs else c :: cs

/-- `os.path.basename` on strings. -/
def basename (s : String) : String := ⟨basenameD s.data⟩

/-- `os.path.join` of a directory path and a relative component. -/
def osJoin (dir name : String) : String := dir ++ "/" ++ name

/-- Python's `str.lower()`, character by character (extensions are ASCII, where
`Char.toLower` and Python agree). -/
def strToLower (s : String) : String := ⟨s.data.map Char.toLower⟩

/-- Character for a single decimal digit. -/
def decChar : Nat → Char
  | 0 => '0'
  | 1 => '1'
  | 2 => '2'
  | 3 => '3'
  | 4 => '4'
  | 5 => '5'
  | 6 => '6'
  | 7 => '7'
  | 8 => '8'
  | _ => '9'

/-- Little-endian decimal digits of `n`, with explicit fuel (structural
recursion; `fuel = n` is always enough). -/
def decDigitsAux : Nat → Nat → List Nat
  | 0, _ => []
  | fuel + 1, n => if n = 0 then [] else n % 10 :: decDigitsAux fuel (n / 10)

/-- Value of a little-endian decimal digit list. -/
def decVal : List Nat → Nat
  | [] => 0
  | d :: ds => d + 10 * decVal ds

/-- Decimal rendering of a natural number, as Python's `str(counter)`
produces inside the f-string `f"{name_without_ext}_{counter}{ext}.txt"`. -/
def natRepr (n : Nat) : String :=
  if n = 0 then "0" else ⟨((decDigitsAux n n).map decChar).reverse⟩

/-! ## The source tree and `find_files_by_format` -/

mutual

/-- A directory in the source tree: the regular files it directly contains
(by base name) and its named subdirectories. -/
inductive FSTree where
  | node (files : List String) (subdirs : FSForest) : FSTree

/-- A list of named subdirectories. -/
inductive FSForest where
  | nil : FSForest
  | cons (name : String) (tree : FSTree) (rest : FSForest) : FSForest

end

mutual

/-- The recursive walk of `find_files_by_format` (lines 54–59): `os.walk` is
top-down, so the files of the current directory are tested first — a file is
kept when its lower-cased `splitext` extension is in `file_formats` — and the
subdirectories are then visited in order.  Kept files are joined onto the
current directory path. -/
def walkTree (file_formats : List String) (path : String) : FSTree → List String
  | .node files subdirs =>
    (files.filter (fun f => file_formats.contains (strToLower (splitext f).2))).map
      (fun f => osJoin path f) ++ walkForest file_formats path subdirs
termination_by structural t => t

/-- The walk over a directory's subdirectory list. -/
def walkForest (file_formats : List String) (path : String) : FSForest → List String
  | .nil => []
  | .cons name t rest =>
    walkTree file_formats (osJoin path name) t ++ walkForest file_formats path rest
termination_by structural f => f

end

mutual

/-- All regular files of the tree, as `(directory path, base name)` pairs, in
walk order and with no extension filtering. -/
def filesOfTree (path : String) : FSTree → List (String × String)
  | .node files subdirs =>
    files.map (fun f => (path, f)) ++ filesOfForest path subdirs
termination_by structural t => t

/-- All regular files of a subdirectory list. -/
def filesOfForest (path : String) : FSForest → List (String × String)
  | .nil => []
  | .cons name t rest =>
    filesOfTree (osJoin path name) t ++ filesOfForest path rest
termination_by structural f => f

end

/-- `find_files_by_format` (lines 33–62).  A missing source directory is
modelled by `none`: the function then returns the empty list (lines 46–48)
instead of raising.  An existing directory is the tree of its contents. -/
def find_files_by_format (source : Option FSTree) (source_dir : String)
    (file_formats : List String) : List String :=
  match source with
  | none => []
  | some t => walkTree file_formats source_dir t

/-- Splitting a character list on `','`, one group per comma gap, as Python's
`str.split(',')`. -/
def splitCommaD : List Char → List (List Char)
  | [] => [[]]
  | c :: cs =>
    match splitCommaD cs with
    | [] => [[c]]
    | g :: gs => if c = ',' then [] :: g :: gs else (c :: g) :: gs

/-- Python's `str.strip()`: drop whitespace from both ends. -/
def stripD (cs : List Char) : List Char :=
  ((cs.dropWhile Char.isWhitespace).reverse.dropWhile Char.isWhitespace).reverse

/-- `parse_file_formats` (lines 112–125): split on commas, strip whitespace,
prefix a dot where missing.  No case normalisation happens here. -/
def parse_file_formats (formats_str : String) : List String :=
  (splitCommaD formats_str.data).map
    (fun f =>
      match stripD f with
      | '.' :: rest => ⟨'.' :: rest⟩
      | other => ⟨'.' :: other⟩)

/-! ## The copy engine `copy_and_rename_files` -/

/-- The destination directory: an association list from file names to file
contents, newest entry first.  Only names and contents matter to the claims. -/
abbrev DestFS := List (String × String)

/-- The names of the files currently in the destination directory; the
`os.path.exists` collision check (line 92) tests membership here. -/
def destNames (d : DestFS) : List String := d.map Prod.fst

/-- Contents of the destination file called `n`, if present. -/
def lookupFS : DestFS → String → Option String
  | [], _ => none
  | (m, v) :: d, n => if m = n then some v else lookupFS d n

/-- A source file as the copy engine sees it: its path, its contents, and an
oracle bit telling whether the `shutil.copy2` I/O for it succeeds (line 100;
a `False` models the per-item exception caught at lines 104–106). -/
structure SrcFile where
  path : String
  content : String
  copyOk : Bool

/-- The sequence of candidate destination names for a base file name
(lines 85 and 93–95): candidate 0 is `file_name + ".txt"`; candidate `k ≥ 1`
is `f"{name_without_ext}_{k}{ext}.txt"` with stem and extension from
`os.path.splitext(file_name)`. -/
def candidate (file_name : String) : Nat → String
  | 0 => file_name ++ ".txt"
  | k + 1 =>
    (splitext file_name).1 ++ "_" ++ natRepr (k + 1) ++ (splitext file_name).2 ++ ".txt"

/-- The collision `while` loop (lines 91–97), scanning candidates from index
`k` upward: return the first candidate whose name no existing destination
file bears.  The fuel argument only bounds the search; `resolveName` supplies
fuel that is provably sufficient. -/
def resolveAux (existing : List String) (file_name : String) : Nat → Nat → String
  | 0, k => candidate file_name k
  | fuel + 1, k =>
    if candidate file_name k ∈ existing then resolveAux existing file_name fuel (k + 1)
    else candidate file_name k

/-- The destination name the engine resolves for one source base name, given
the names already present at the destination: the first free candidate. -/
def resolveName (existing : List String) (file_name : String) : String :=
  resolveAux existing file_name (existing.length + 2) 0

/-- The per-file loop of `copy_and_rename_files` (lines 79–106), threading the
destination directory and the two counters.  Each iteration resolves a fresh
name starting from candidate 0 — the counter restarts for every file — then
either writes the file (success) or leaves the destination unchanged and
counts an error. -/
def copyFilesLoop : List SrcFile → DestFS → Nat → Nat → Nat × Nat × DestFS
  | [], dest, copied, errors => (copied, errors, dest)
  | f :: rest, dest, copied, errors =>
    let name := resolveName (destNames dest) (basename f.path)
    if f.copyOk then
      copyFilesLoop rest ((name, f.content) :: dest) (copied + 1) errors
    else
      copyFilesLoop rest dest copied (errors + 1)

/-- The final report of `copy_and_rename_files`: either the early
"Нет файлов для копирования" message (lines 72–74) or the two aggregate
counts (lines 108–110). -/
inductive CopyReport where
  | nothingToCopy : CopyReport
  | counts (copied errors : Nat) : CopyReport
deriving DecidableEq

/-- `copy_and_rename_files` (lines 64–110): empty input returns at once with
the distinct "nothing to copy" report; otherwise every file is processed and
the counts are reported. -/
def copy_and_rename_files (files_list : List SrcFile) (dest : DestFS) :
    CopyReport × DestFS :=
  match files_list with
  | [] => (CopyReport.nothingToCopy, dest)
  | _ :: _ =>
    let r := copyFilesLoop files_list dest 0 0
    (CopyReport.counts r.1 r.2.1, r.2.2)

/-! ## `create_destination_dir` and `main` -/

/-- `create_destination_dir` (lines 19–31): `os.makedirs` either succeeds
(the oracle bit `mkdirOk`) or the program terminates with `sys.exit(1)`. -/
def create_destination_dir (mkdirOk : Bool) : Except Nat Unit :=
  if mkdirOk then Except.ok () else Except.error 1

/-- `main` (lines 127–185), returning the process exit status.  `mkdirOk`
models whether `os.makedirs` succeeds, `source` the source tree (`none` when
the source directory does not exist), `readF` the contents of each located
path, and `okF` whether its individual copy succeeds. -/
def main (mkdirOk : Bool) (source : Option FSTree) (source_dir : String)
    (file_formats : List String) (dest : DestFS)
    (readF : String → String) (okF : String → Bool) : Nat :=
  match create_destination_dir mkdirOk with
  | Except.error code => code
  | Except.ok () =>
    let files_to_copy := find_files_by_format source source_dir file_formats
    let srcFiles := files_to_copy.map (fun p => SrcFile.mk p (readF p) (okF p))
    let _ := copy_and_rename_files srcFiles dest
    0

/-! ## Helper lemmas: decimal rendering is injective -/

theorem strExt {s t : String} (h : s.data = t.data) : s = t := String.ext h

theorem strData_append (s t : String) : (s ++ t).data = s.data ++ t.data := rfl

theorem decVal_decDigitsAux : ∀ fuel n, n ≤ fuel → decVal (decDigitsAux fuel n) = n := by
  intro fuel
  induction fuel with
  | zero =>
    intro n h
    have : n = 0 := Nat.le_zero.mp h
    simp [this, decDigitsAux, decVal]
  | succ f ih =>
    intro n h
    by_cases hn : n = 0
    · simp [hn, decDigitsAux, decVal]
    · have hdiv : n / 10 ≤ f := by omega
      simp only [decDigitsAux, hn, if_false, decVal, ih (n / 10) hdiv]
      omega

theorem decDigitsAux_lt : ∀ fuel n d, d ∈ decDigitsAux fuel n → d < 10 := by
  intro fuel
  induction fuel with
  | zero => intro n d h; simp [decDigitsAux] at h
  | succ f ih =>
    intro n d h
    by_cases hn : n = 0
    · simp [decDigitsAux, hn] at h
    · simp only [decDigitsAux, hn, if_false, List.mem_cons] at h
      rcases h with h | h
      · omega
      · exact ih (n / 10) d h

theorem decChar_lt_inj : ∀ d₁ d₂, d₁ < 10 → d₂ < 10 → decChar d₁ = decChar d₂ → d₁ = d₂ := by
  intro d₁ d₂ h₁ h₂
  interval_cases d₁ <;> interval_cases d₂ <;> decide

theorem mapDecChar_inj : ∀ l₁ l₂ : List Nat, (∀ d ∈ l₁, d < 10) → (∀ d ∈ l₂, d < 10) →
    l₁.map decChar = l₂.map decChar → l₁ = l₂ := by
  intro l₁
  induction l₁ with
  | nil =>
    intro l₂ _ _ h
    cases l₂ with
    | nil => rfl
    | cons e l => simp at h
  | cons d l ih =>
    intro l₂ h₁ h₂ h
    cases l₂ with
    | nil => simp at h
    | cons e l' =>
      simp only [List.map_cons, List.cons.injEq] at h
      have hde : d = e :=
        decChar_lt_inj d e (h₁ d (List.mem_cons_self d l)) (h₂ e (List.mem_cons_self e l')) h.1
      have hll : l = l' :=
        ih l' (fun x hx => h₁ x (List.mem_cons_of_mem d hx))
          (fun x hx => h₂ x (List.mem_cons_of_mem e hx)) h.2
      rw [hde, hll]

theorem natRepr_data (n : Nat) (hn : n ≠ 0) :
    (natRepr n).data = ((decDigitsAux n n).map decChar).reverse := by
  simp [natRepr, hn]

theorem decDigitsAux_self_ne_nil (n : Nat) (hn : n ≠ 0) : decDigitsAux n n ≠ [] := by
  cases n with
  | zero => exact absurd rfl hn
  | succ m => simp [decDigitsAux]

theorem natRepr_data_ne_nil (n : Nat) : (natRepr n).data ≠ [] := by
  by_cases hn : n = 0
  · simp [natRepr, hn]
  · rw [natRepr_data n hn]
    simp only [ne_eq, List.reverse_eq_nil_iff, List.map_eq_nil_iff]
    exact decDigitsAux_self_ne_nil n hn

theorem natRepr_length_pos (n : Nat) : 0 < (natRepr n).length :=
  List.length_pos.mpr (natRepr_data_ne_nil n)

theorem natRepr_ne_zero_str (n : Nat) (hn : n ≠ 0) : natRepr n ≠ "0" := by
  intro h
  have hd := congrArg String.data h
  rw [natRepr_data n hn] at hd
  have hmap : (decDigitsAux n n).map decChar = ['0'] := by
    have := congrArg List.reverse hd
    simpa using this
  cases hds : decDigitsAux n n with
  | nil => rw [hds] at hmap; simp at hmap
  | cons d ds =>
    rw [hds] at hmap
    simp only [List.map_cons, List.cons.injEq, List.map_eq_nil_iff] at hmap
    have hd10 : d < 10 := decDigitsAux_lt n n d (by rw [hds]; exact List.mem_cons_self d ds)
    have hd0 : d = 0 := decChar_lt_inj d 0 hd10 (by omega) (by rw [hmap.1]; rfl)
    have hv := decVal_decDigitsAux n n (Nat.le_refl n)
    rw [hds, hmap.2, hd0] at hv
    simp [decVal] at hv
    exact hn hv.symm

theorem natRepr_inj : ∀ m n : Nat, natRepr m = natRepr n → m = n := by
  intro m n h
  have h0 : natRepr 0 = "0" := rfl
  by_cases hm : m = 0 <;> by_cases hn : n = 0
  · rw [hm, hn]
  · rw [hm, h0] at h
    exact absurd h.symm (natRepr_ne_zero_str n hn)
  · rw [hn, h0] at h
    exact absurd h (natRepr_ne_zero_str m hm)
  · have hd := congrArg String.data h
    rw [natRepr_data m hm, natRepr_data n hn] at hd
    have hmap := List.reverse_injective hd
    have hds := mapDecChar_inj _ _ (fun d hdm => decDigitsAux_lt m m d hdm)
      (fun d hdn => decDigitsAux_lt n n d hdn) hmap
    have hvm := decVal_decDigitsAux m m (Nat.le_refl m)
    have hvn := decVal_decDigitsAux n n (Nat.le_refl n)
    rw [← hvm, ← hvn, hds]

/-! ## Helper lemmas: `splitext` and candidate names -/

theorem findLastDotSplit_eq : ∀ cs b a, findLastDotSplit cs = some (b, a) → b ++ a = cs := by
  intro cs
  induction cs with
  | nil => intro b a h; simp [findLastDotSplit] at h
  | cons c cs ih =>
    intro b a h
    simp only [findLastDotSplit] at h
    cases hrec : findLastDotSplit cs with
    | some p =>
      obtain ⟨b', a'⟩ := p
      rw [hrec] at h
      simp only [Option.some.injEq, Prod.mk.injEq] at h
      rw [← h.1, ← h.2, List.cons_append, ih b' a' hrec]
    | none =>
      rw [hrec] at h
      by_cases hc : c = '.'
      · rw [if_pos hc] at h
        simp only [Option.some.injEq, Prod.mk.injEq] at h
        rw [← h.1, ← h.2]
        simp
      · rw [if_neg hc] at h
        exact absurd h (by simp)

theorem splitext_eq_none (s : String) (h : findLastDotSplit s.data = none) :
    splitext s = (s, "") := by
  unfold splitext
  rw [h]

theorem splitext_eq_some (s : String) (b a : List Char)
    (h : findLastDotSplit s.data = some (b, a)) :
    splitext s = if (b.any fun c => c ≠ '.') = true then (⟨b⟩, ⟨a⟩) else (s, "") := by
  unfold splitext
  rw [h]

theorem splitext_concat (s : String) : (splitext s).1 ++ (splitext s).2 = s := by
  apply strExt
  rw [strData_append]
  cases h : findLastDotSplit s.data with
  | none => rw [splitext_eq_none s h]; simp
  | some p =>
    obtain ⟨b, a⟩ := p
    by_cases hany : (b.any fun c => c ≠ '.') = true
    · rw [splitext_eq_some s b a h, if_pos hany]
      exact findLastDotSplit_eq s.data b a h
    · rw [splitext_eq_some s b a h, if_neg hany]
      simp

theorem candidate_succ_data (fn : String) (k : Nat) :
    (candidate fn (k + 1)).data =
      (splitext fn).1.data ++ "_".data ++ (natRepr (k + 1)).data ++
        (splitext fn).2.data ++ ".txt".data := by
  simp [candidate, strData_append]

theorem candidate_inj (fn : String) : ∀ i j, candidate fn i = candidate fn j → i = j := by
  have hsplit : (splitext fn).1 ++ (splitext fn).2 = fn := splitext_concat fn
  have hlen : (splitext fn).1.length + (splitext fn).2.length = fn.length := by
    rw [← congrArg String.length hsplit, String.length_append]
  intro i j h
  match i, j with
  | 0, 0 => rfl
  | 0, j + 1 =>
    exfalso
    have hl := congrArg String.length h
    simp only [candidate, String.length_append] at hl
    have hrp := natRepr_length_pos (j + 1)
    have h4 : (".txt" : String).length = 4 := rfl
    have h1 : ("_" : String).length = 1 := rfl
    omega
  | i + 1, 0 =>
    exfalso
    have hl := congrArg String.length h
    simp only [candidate, String.length_append] at hl
    have hrp := natRepr_length_pos (i + 1)
    have h4 : (".txt" : String).length = 4 := rfl
    have h1 : ("_" : String).length = 1 := rfl
    omega
  | i + 1, j + 1 =>
    have hd := congrArg String.data h
    rw [candidate_succ_data, candidate_succ_data] at hd
    simp only [List.append_assoc] at hd
    have h1 := List.append_cancel_left hd
    have h2 := List.append_cancel_left h1
    have h3 := List.append_cancel_right h2
    have := natRepr_inj (i + 1) (j + 1) (strExt h3)
    omega

/-! ## Helper lemmas: the collision loop finds the first free name -/

theorem exists_candidate_notMem (existing : List String) (fn : String) (start : Nat) :
    ∃ r, r < existing.length + 1 ∧ candidate fn (start + r) ∉ existing := by
  by_contra hc
  push_neg at hc
  set l := (List.range (existing.length + 1)).map (fun r => candidate fn (start + r)) with hl
  have hinj : Function.Injective (fun r => candidate fn (start + r)) := by
    intro r₁ r₂ hr
    have := candidate_inj fn (start + r₁) (start + r₂) hr
    omega
  have hnd : l.Nodup := (List.nodup_range _).map hinj
  have hsub : l.toFinset ⊆ existing.toFinset := by
    intro x hx
    rw [List.mem_toFinset] at hx ⊢
    rw [hl, List.mem_map] at hx
    obtain ⟨r, hr, rfl⟩ := hx
    exact hc r (List.mem_range.mp hr)
  have hcard := Finset.card_le_card hsub
  rw [List.toFinset_card_of_nodup hnd] at hcard
  have hle := existing.toFinset_card_le
  simp only [hl, List.length_map, List.length_range] at hcard
  omega

theorem resolveAux_spec (existing : List String) (fn : String) :
    ∀ fuel start, (∃ r, r < fuel ∧ candidate fn (start + r) ∉ existing) →
      ∃ k, start ≤ k ∧ resolveAux existing fn fuel start = candidate fn k ∧
        candidate fn k ∉ existing ∧ ∀ j, start ≤ j → j < k → candidate fn j ∈ existing := by
  intro fuel
  induction fuel with
  | zero =>
    rintro start ⟨r, hr, _⟩
    omega
  | succ f ih =>
    rintro start ⟨r, hr, hfree⟩
    by_cases hmem : candidate fn start ∈ existing
    · have hr0 : r ≠ 0 := by
        intro h0
        rw [h0, Nat.add_zero] at hfree
        exact hfree hmem
      obtain ⟨k, hk1, hk2, hk3, hk4⟩ := ih (start + 1)
        ⟨r - 1, by omega, by have : start + 1 + (r - 1) = start + r := by omega
                             rw [this]; exact hfree⟩
      refine ⟨k, by omega, ?_, hk3, ?_⟩
      · simpa only [resolveAux, hmem, if_true] using hk2
      · intro m hm1 hm2
        rcases Nat.eq_or_lt_of_le hm1 with he | hlt
        · rw [← he]; exact hmem
        · exact hk4 m hlt hm2
    · exact ⟨start, Nat.le_refl start, by simp [resolveAux, hmem], hmem,
        fun m hm1 hm2 => absurd hm1 (by omega)⟩

theorem resolveName_spec (existing : List String) (fn : String) :
    ∃ k, resolveName existing fn = candidate fn k ∧ candidate fn k ∉ existing ∧
      ∀ j, j < k → candidate fn j ∈ existing := by
  obtain ⟨r, hr, hfree⟩ := exists_candidate_notMem existing fn 0
  obtain ⟨k, _, h2, h3, h4⟩ := resolveAux_spec existing fn (existing.length + 2) 0
    ⟨r, by omega, by simpa using hfree⟩
  exact ⟨k, h2, h3, fun j hj => h4 j (Nat.zero_le j) hj⟩

theorem resolveName_notMem (existing : List String) (fn : String) :
    resolveName existing fn ∉ existing := by
  obtain ⟨k, he, hn, _⟩ := resolveName_spec existing fn
  rw [he]
  exact hn

/-! ## Helper lemmas: the copy loop -/

theorem copyFilesLoop_counts : ∀ (files : List SrcFile) (dest : DestFS) (copied errors : Nat),
    (copyFilesLoop files dest copied errors).1 + (copyFilesLoop files dest copied errors).2.1 =
      copied + errors + files.length := by
  intro files
  induction files with
  | nil => intro dest copied errors; simp [copyFilesLoop]
  | cons f rest ih =>
    intro dest copied errors
    cases hok : f.copyOk
    · simp only [copyFilesLoop, hok, Bool.false_eq_true, if_false, List.length_cons]
      rw [ih]
      omega
    · simp only [copyFilesLoop, hok, if_true, List.length_cons]
      rw [ih]
      omega

theorem copyFilesLoop_preserves :
    ∀ (files : List SrcFile) (dest : DestFS) (copied errors : Nat) (n : String),
      n ∈ destNames dest →
      lookupFS (copyFilesLoop files dest copied errors).2.2 n = lookupFS dest n := by
  intro files
  induction files with
  | nil => intro dest copied errors n _; simp [copyFilesLoop]
  | cons f rest ih =>
    intro dest copied errors n hn
    have hfresh : resolveName (destNames dest) (basename f.path) ∉ destNames dest :=
      resolveName_notMem (destNames dest) (basename f.path)
    cases hok : f.copyOk
    · simp only [copyFilesLoop, hok, Bool.false_eq_true, if_false]
      exact ih dest copied (errors + 1) n hn
    · simp only [copyFilesLoop, hok, if_true]
      have hne : resolveName (destNames dest) (basename f.path) ≠ n := by
        intro he
        rw [he] at hfresh
        exact hfresh hn
      have hmem : n ∈ destNames ((resolveName (destNames dest) (basename f.path),
          f.content) :: dest) := by
        simp only [destNames, List.map_cons]
        exact List.mem_cons_of_mem _ hn
      rw [ih _ (copied + 1) errors n hmem]
      simp only [lookupFS, hne, if_false]

/-! ## Helper lemmas: the walk -/

mutual

theorem walkTree_eq (fmts : List String) (path : String) (t : FSTree) :
    walkTree fmts path t =
      ((filesOfTree path t).filter
        (fun pr => fmts.contains (strToLower (splitext pr.2).2))).map
        (fun pr => osJoin pr.1 pr.2) := by
  cases t with
  | node files subdirs =>
    simp only [walkTree, filesOfTree, List.filter_append, List.map_append,
      walkForest_eq fmts path subdirs, List.filter_map, List.map_map]
    rfl
termination_by structural t

theorem walkForest_eq (fmts : List String) (path : String) (f : FSForest) :
    walkForest fmts path f =
      ((filesOfForest path f).filter
        (fun pr => fmts.contains (strToLower (splitext pr.2).2))).map
        (fun pr => osJoin pr.1 pr.2) := by
  cases f with
  | nil => simp [walkForest, filesOfForest]
  | cons name t rest =>
    simp only [walkForest, filesOfForest, List.filter_append, List.map_append,
      walkTree_eq fmts (osJoin path name) t, walkForest_eq fmts path rest]
termination_by structural f

end

mutual

theorem walkTree_mem_prefixed (fmts : List String) (path : String) (t : FSTree) (p : String)
    (h : p ∈ walkTree fmts path t) : ∃ rest, p = path ++ "/" ++ rest := by
  cases t with
  | node files subdirs =>
    simp only [walkTree] at h
    rcases List.mem_append.mp h with hf | hs
    · obtain ⟨f, _, rfl⟩ := List.mem_map.mp hf
      exact ⟨f, rfl⟩
    · exact walkForest_mem_prefixed fmts path subdirs p hs
termination_by structural t

theorem walkForest_mem_prefixed (fmts : List String) (path : String) (f : FSForest) (p : String)
    (h : p ∈ walkForest fmts path f) : ∃ rest, p = path ++ "/" ++ rest := by
  cases f with
  | nil => simp [walkForest] at h
  | cons name t rest =>
    simp only [walkForest] at h
    rcases List.mem_append.mp h with ht | hr
    · obtain ⟨s, hs⟩ := walkTree_mem_prefixed fmts (osJoin path name) t p ht
      refine ⟨name ++ "/" ++ s, ?_⟩
      rw [hs]
      apply strExt
      simp [osJoin, strData_append]
    · exact walkForest_mem_prefixed fmts path rest p hr
termination_by structural f

end

/-! ## Claim theorems -/

/-- C1: for every extension filter set `F` and every directory tree rooted at
`source_dir`, the list returned by `find_files_by_format` contains exactly the
regular files in the tree whose lower-cased extension is a member of `F` — the
filtered projection of the full file listing, at every depth, in walk order. -/
theorem find_files_exact (t : FSTree) (source_dir : String) (F : List String) :
    find_files_by_format (some t) source_dir F =
      ((filesOfTree source_dir t).filter
        (fun pr => F.contains (strToLower (splitext pr.2).2))).map
        (fun pr => osJoin pr.1 pr.2) :=
  walkTree_eq F source_dir t

/-- C2: the first candidate destination name is the base filename with `.txt`
appended; on collision the successive candidates are
`{stem}_{counter}{original_extension}.txt` with the counter starting at 1 and
incrementing until a free name is found, and the counter restarts for every
source file independently (each loop iteration resolves from scratch against
the current destination). -/
theorem copy_candidate_scheme (existing : List String) (file_name : String) :
    candidate file_name 0 = file_name ++ ".txt" ∧
    (candidate file_name 0 ∉ existing → resolveName existing file_name = file_name ++ ".txt") ∧
    (candidate file_name 0 ∈ existing →
      ∃ k, 1 ≤ k ∧
        resolveName existing file_name =
          (splitext file_name).1 ++ "_" ++ natRepr k ++ (splitext file_name).2 ++ ".txt" ∧
        candidate file_name k ∉ existing ∧
        ∀ j, 1 ≤ j → j < k → candidate file_name j ∈ existing) ∧
    (∀ (f : SrcFile) (rest : List SrcFile) (dest : DestFS) (copied errors : Nat),
      copyFilesLoop (f :: rest) dest copied errors =
        if f.copyOk then
          copyFilesLoop rest
            ((resolveName (destNames dest) (basename f.path), f.content) :: dest)
            (copied + 1) errors
        else copyFilesLoop rest dest copied (errors + 1)) := by
  obtain ⟨k, hres, hfree, hmin⟩ := resolveName_spec existing file_name
  refine ⟨rfl, ?_, ?_, ?_⟩
  · intro h0
    cases k with
    | zero => exact hres
    | succ m => exact absurd (hmin 0 (Nat.succ_pos m)) h0
  · intro h0
    cases k with
    | zero => exact absurd h0 (by rwa [← Nat.zero_eq] at hfree)
    | succ m =>
      exact ⟨m + 1, Nat.succ_le_succ (Nat.zero_le m), hres, hfree,
        fun j h1 h2 => hmin j h2⟩
  · intro f rest dest copied errors
    cases hok : f.copyOk <;> simp [copyFilesLoop, hok]

/-- Witness for C2 at a concrete input: with `a.py.txt` already present, the
collision branch applies and yields a numbered candidate. -/
theorem copy_candidate_scheme_wit :
    ∃ k, 1 ≤ k ∧
      resolveName ["a.py.txt"] "a.py" =
        (splitext "a.py").1 ++ "_" ++ natRepr k ++ (splitext "a.py").2 ++ ".txt" ∧
      candidate "a.py" k ∉ ["a.py.txt"] ∧
      ∀ j, 1 ≤ j → j < k → candidate "a.py" j ∈ ["a.py.txt"] :=
  (copy_candidate_scheme ["a.py.txt"] "a.py").2.2.1 (by decide)

/-- C3: the copy engine never writes to a destination name that already
exists — the resolved name is always outside the current destination — so a
file present in the destination directory before the run keeps its exact
contents after the whole run. -/
theorem copy_never_overwrites :
    (∀ (existing : List String) (file_name : String),
      resolveName existing file_name ∉ existing) ∧
    ∀ (files_list : List SrcFile) (dest : DestFS) (n : String),
      n ∈ destNames dest →
      lookupFS (copy_and_rename_files files_list dest).2 n = lookupFS dest n := by
  refine ⟨resolveName_notMem, ?_⟩
  intro files_list dest n hn
  cases files_list with
  | nil => rfl
  | cons f rest =>
    exact copyFilesLoop_preserves (f :: rest) dest 0 0 n hn

/-- Witness for C3 at a concrete input: a pre-existing destination file keeps
its contents across a run that copies a colliding source file. -/
theorem copy_never_overwrites_wit :
    lookupFS (copy_and_rename_files [⟨"src/a.py", "NEW", true⟩] [("a.py.txt", "OLD")]).2
        "a.py.txt" =
      lookupFS [("a.py.txt", "OLD")] "a.py.txt" :=
  copy_never_overwrites.2 [⟨"src/a.py", "NEW", true⟩] [("a.py.txt", "OLD")] "a.py.txt"
    (by decide)

/-- C4 counterexample: with `a.py.txt` already at the destination, copying
`a.py` resolves to `a_1.py.txt` — `os.path.splitext("a.py")` has stem `"a"` —
not to `a.py_1.py.txt` as the claim (spec Scenario B) states. -/
theorem scenarioB_counterexample :
    resolveName ["a.py.txt"] "a.py" ≠ "a.py_1.py.txt" ∧
    resolveName ["a.py.txt"] "a.py" = "a_1.py.txt" := by decide

/-- C4 amended: if the destination already contains `a.py.txt` and the source
file `a.py` is copied, the resulting destination name is `a_1.py.txt` and no
overwrite occurs — the pre-existing file keeps its contents. -/
theorem scenarioB_amended :
    copy_and_rename_files [⟨"src/a.py", "NEW", true⟩] [("a.py.txt", "OLD")] =
      (CopyReport.counts 1 0, [("a_1.py.txt", "NEW"), ("a.py.txt", "OLD")]) := by decide

/-- C5 counterexample: matching is not case-insensitive on the filter side —
the filter entry `.PY` does not match the file `a.py` (the code lower-cases
only the file's extension and compares it literally against the filter, and
`parse_file_formats` performs no case normalisation). -/
theorem filter_case_counterexample :
    find_files_by_format (some (.node ["a.py"] .nil)) "src" [".PY"] = [] ∧
    parse_file_formats "PY" = [".PY"] := by decide

/-- C5 amended: extension matching is case-insensitive with respect to the
file side only: a file is included exactly when its lower-cased extension is
literally a member of the filter set (so filter `.py` matches file `A.PY`, but
filter `.PY` matches no file). -/
theorem filter_case_amended (F : List String) (d f : String) :
    find_files_by_format (some (.node [f] .nil)) d F =
      (if F.contains (strToLower (splitext f).2) then [osJoin d f] else []) := by
  by_cases h : strToLower (splitext f).2 ∈ F
  · simp [find_files_by_format, walkTree, walkForest, h]
  · simp [find_files_by_format, walkTree, walkForest, h]

/-- C6: `copy_and_rename_files` processes all items even when individual
copies fail: the two counters always sum to the length of the input list, and
an empty input is reported distinctly as nothing-to-copy (and leaves the
destination untouched) rather than as an error. -/
theorem copy_counts_complete (files_list : List SrcFile) (dest : DestFS) :
    (files_list = [] →
      copy_and_rename_files files_list dest = (CopyReport.nothingToCopy, dest)) ∧
    (files_list ≠ [] →
      ∃ c e d, copy_and_rename_files files_list dest = (CopyReport.counts c e, d) ∧
        c + e = files_list.length) := by
  constructor
  · intro h
    rw [h]
    rfl
  · intro h
    cases files_list with
    | nil => exact absurd rfl h
    | cons f rest =>
      refine ⟨(copyFilesLoop (f :: rest) dest 0 0).1, (copyFilesLoop (f :: rest) dest 0 0).2.1,
        (copyFilesLoop (f :: rest) dest 0 0).2.2, rfl, ?_⟩
      rw [copyFilesLoop_counts (f :: rest) dest 0 0]
      omega

/-- Witness for C6 at a concrete input: one succeeding and one failing copy
give counts summing to the input length. -/
theorem copy_counts_complete_wit :
    ∃ c e d,
      copy_and_rename_files [⟨"s/a.py", "A", true⟩, ⟨"s/b.py", "B", false⟩] [] =
        (CopyReport.counts c e, d) ∧
      c + e = ([⟨"s/a.py", "A", true⟩, ⟨"s/b.py", "B", false⟩] : List SrcFile).length :=
  (copy_counts_complete [⟨"s/a.py", "A", true⟩, ⟨"s/b.py", "B", false⟩] []).2 (by simp)

/-- C7: a missing source directory makes `find_files_by_format` return the
empty list instead of raising, and the program still runs to normal completion
with exit status 0. -/
theorem missing_source_nonfatal (source_dir : String) (F : List String) (dest : DestFS)
    (readF : String → String) (okF : String → Bool) :
    find_files_by_format none source_dir F = [] ∧
    main true none source_dir F dest readF okF = 0 :=
  ⟨rfl, rfl⟩

/-- C8: the program exits non-zero exactly when creating the destination
directory fails; any run whose `os.makedirs` succeeds — whatever the source
tree and however many individual copies fail — completes with exit status 0. -/
theorem exit_nonzero_iff_mkdir_fails (mkdirOk : Bool) (source : Option FSTree)
    (source_dir : String) (F : List String) (dest : DestFS)
    (readF : String → String) (okF : String → Bool) :
    main mkdirOk source source_dir F dest readF okF ≠ 0 ↔ mkdirOk = false := by
  cases mkdirOk <;> simp [main, create_destination_dir]

/-- C9: the collision-resolution loop terminates: candidate names at distinct
counters are pairwise distinct, so the loop always resolves, for any finite
set of existing destination names, a name outside that set. -/
theorem collision_loop_terminates (existing : List String) (file_name : String)
    (i j : Nat) (h : i ≠ j) :
    candidate file_name i ≠ candidate file_name j ∧
    resolveName existing file_name ∉ existing :=
  ⟨fun he => h (candidate_inj file_name i j he), resolveName_notMem existing file_name⟩

/-- Witness for C9 at a concrete input: candidates 1 and 2 of `a.py` differ,
and the loop resolves a free name even though `a.py.txt` is taken. -/
theorem collision_loop_terminates_wit :
    candidate "a.py" 1 ≠ candidate "a.py" 2 ∧
    resolveName ["a.py.txt"] "a.py" ∉ ["a.py.txt"] :=
  collision_loop_terminates ["a.py.txt"] "a.py" 1 2 (by decide)

/-- C10: every path returned by `find_files_by_format` lies under the source
root: it is the root joined with a relative remainder, so the walk never
returns a path outside the source tree. -/
theorem found_paths_under_root (F : List String) (source_dir : String) (t : FSTree)
    (p : String) (h : p ∈ find_files_by_format (some t) source_dir F) :
    ∃ rest, p = source_dir ++ "/" ++ rest :=
  walkTree_mem_prefixed F source_dir t p h

/-- Witness for C10 at a concrete input: the located path `root/a.py` is the
root joined with a remainder. -/
theorem found_paths_under_root_wit :
    ∃ rest, ("root/a.py" : String) = "root" ++ "/" ++ rest :=
  found_paths_under_root [".py"] "root" (.node ["a.py"] .nil) "root/a.py" (by decide)

end Renamer
